import Mathlib

/-!
Shallow embedding of the look-ahead playback scheduler and the Web Audio
engine of the repository `tale-of-two-clocks`.

Scheduler source (the article file): `scheduleNotePlay` and `playAllNotes`.
Audio engine source: `src/utils/audioPlayer.ts` (`AudioPlayer` with
`initialize`, `resume`, `playChord`, `playNote`, `getFrequency`).

Real numbers of the source are embedded as `ℚ`.  The effect of the generic
timer primitive `scheduleAction(action, ms)` is reified: an armed action is
returned as a value `TimedAction` holding the delay in milliseconds and the
list of observable events the callback performs, in order.
-/

namespace Clocks

/-- A note: one or more pitch names played together, plus a duration in beats
(`type Note = \x7b keys: string[], duration: number \x7d` in the source). -/
structure Note where
  keys : List String
  duration : ℚ
deriving DecidableEq, Repr

/-- The observable effects a timed callback performs when it fires:
a visual highlight `onNoteStart(index)`, an audio call
`audioPlayer.playChord(keys, durationSeconds)`, or the completion callback. -/
inductive SchedEvent where
  | noteStart (index : Nat)
  | chord (keys : List String) (durationSeconds : ℚ)
  | complete
deriving DecidableEq, Repr

/-- One armed one-shot timed action: the delay in milliseconds passed to
`scheduleAction`, and the ordered list of events its callback performs. -/
structure TimedAction where
  delayMs : ℚ
  events : List SchedEvent
deriving DecidableEq, Repr

/-- Embeds `scheduleNotePlay(note, index, delay, audioPlayer, onNoteStart)`:
arms one action at `delay * 1000` milliseconds whose callback performs
`onNoteStart(index)` and then
`audioPlayer.playChord(note.keys, note.duration * BEAT_DURATION)`, and returns
the advanced accumulator `delay + note.duration * BEAT_DURATION`.  The module
constant `BEAT_DURATION` (seconds per beat) is the parameter `B`; the armed
action is returned explicitly instead of performed as a side effect. -/
def scheduleNotePlay (note : Note) (index : Nat) (delay : ℚ) (B : ℚ) :
    ℚ × TimedAction :=
  (delay + note.duration * B,
   TimedAction.mk (delay * 1000)
     [SchedEvent.noteStart index, SchedEvent.chord note.keys (note.duration * B)])

/-- The indexed left fold `notes.reduce((delay, note, index) => ..., 0)` of
`playAllNotes`, made explicit: threads the delay accumulator through
`scheduleNotePlay` for positions `index, index + 1, ...` and collects the
armed actions in source order.  Returns the final accumulator and the
actions. -/
def playNotesFrom (notes : List Note) (index : Nat) (delay : ℚ) (B : ℚ) :
    ℚ × List TimedAction :=
  match notes with
  | [] => (delay, [])
  | note :: rest =>
    let step := scheduleNotePlay note index delay B
    let tail := playNotesFrom rest (index + 1) step.1 B
    (tail.1, step.2 :: tail.2)

/-- Embeds `playAllNotes(notes, audioPlayer, onNoteStart, onComplete)`:
the reduce over the notes starting from delay `0`, followed by
`scheduleAction(onComplete, totalDelay * 1000)`.  The result is the list of
all armed timed actions, in the order they were armed. -/
def playAllNotes (notes : List Note) (B : ℚ) : List TimedAction :=
  let r := playNotesFrom notes 0 0 B
  r.2 ++ [TimedAction.mk (r.1 * 1000) [SchedEvent.complete]]

/-- Run state of the audio context (`AudioContext.state`). -/
inductive CtxRunState where
  | suspended
  | running
  | closed
deriving DecidableEq, Repr

/-- The only oscillator wave shape the source ever sets is `'sine'`. -/
inductive WaveKind where
  | sine
deriving DecidableEq, Repr

/-- One tone-producing unit (oscillator + gain stage) as configured by
`playNote`: its frequency and wave shape, the gain envelope
(`setValueAtTime(0.3, t)` then `exponentialRampToValueAtTime(0.01, t')`), and
the commanded oscillator start and stop instants on the timeline clock. -/
structure ToneUnit where
  frequency : ℚ
  wave : WaveKind
  gainStartValue : ℚ
  gainStartAt : ℚ
  gainRampTarget : ℚ
  gainRampEndAt : ℚ
  startAt : ℚ
  stopAt : ℚ
deriving DecidableEq, Repr

/-- The audio context.  `currentTime` is a live hardware-backed clock
("a monotonically increasing real-valued time source"), so each read of the
property may observe a later instant: `clock k` is the value returned by the
`k`-th read of `currentTime` since the context was created, and `reads`
counts the reads performed so far.  The Web Audio monotonicity guarantee is
the hypothesis `Monotone clock` wherever a statement needs it.  `units`
collects the oscillator/gain units created in this context, in creation
order. -/
structure AudioContextM where
  clock : Nat → ℚ
  reads : Nat
  runState : CtxRunState
  units : List ToneUnit

/-- The `AudioPlayer` class state: the (initially null) audio context and the
`isInitialized` flag (named `isInit` here). -/
structure AudioPlayer where
  audioContext : Option AudioContextM
  isInit : Bool

/-- The freshly constructed `AudioPlayer` (`audioContext = null`,
`isInitialized = false`). -/
def initialPlayer : AudioPlayer :=
  AudioPlayer.mk none false

/-- The `noteMap` table of `getFrequency`, with each pitch name's frequency
in Hz. -/
def noteMap : List (String × ℚ) :=
  [(("c/4"), 26163/100),
   (("d/4"), 29366/100),
   (("e/4"), 32963/100),
   (("f/4"), 34923/100),
   (("g/4"), 39200/100),
   (("a/4"), 44000/100),
   (("b/4"), 49388/100),
   (("c/5"), 52325/100),
   (("d/5"), 58733/100),
   (("e/5"), 65925/100),
   (("f/5"), 69846/100),
   (("g/5"), 78399/100),
   (("a/5"), 88000/100),
   (("b/5"), 98777/100)]

/-- Embeds `getFrequency(note)`: `noteMap[note] || 440`.  The JavaScript `||`
falls through to `440` when the looked-up value is absent or falsy (`0`). -/
def getFrequency (note : String) : ℚ :=
  match noteMap.lookup note with
  | some f => if f = 0 then 440 else f
  | none => 440

/-- Embeds the private `playNote(frequency, duration)`: when a context
exists, creates one oscillator and one gain node and configures them.  The
source reads `this.audioContext.currentTime` afresh at each of its four
uses — `gain.setValueAtTime(0.3, ·)`, `gain.exponentialRampToValueAtTime(0.01,
· + duration)`, `oscillator.start(·)` and `oscillator.stop(· + duration)` —
so the unit records four successive clock reads. -/
def playNote (frequency : ℚ) (duration : ℚ) (p : AudioPlayer) : AudioPlayer :=
  match p.audioContext with
  | none => p
  | some ctx =>
    let r0 := ctx.clock ctx.reads
    let r1 := ctx.clock (ctx.reads + 1)
    let r2 := ctx.clock (ctx.reads + 2)
    let r3 := ctx.clock (ctx.reads + 3)
    let unit := ToneUnit.mk frequency WaveKind.sine (3/10) r0 (1/100)
      (r1 + duration) r2 (r3 + duration)
    AudioPlayer.mk
      (some (AudioContextM.mk ctx.clock (ctx.reads + 4) ctx.runState
        (ctx.units ++ [unit])))
      p.isInit

/-- Embeds `playChord(keys, duration)`: returns unchanged when no context
exists, else plays one note per key, in key order, each at
`getFrequency(key)`. -/
def playChord (keys : List String) (duration : ℚ) (p : AudioPlayer) :
    AudioPlayer :=
  match p.audioContext with
  | none => p
  | some _ => keys.foldl (fun q key => playNote (getFrequency key) duration q) p

/-- Embeds `initialize()`: when not yet initialized and a `window` global
exists, constructs the audio context (fresh clock, no reads performed, no
units) and marks the player initialized; otherwise does nothing.
`windowDefined` reflects `typeof window !== 'undefined'`; `clock` and `st`
are the clock and initial run state the environment gives the freshly
constructed context. -/
def initAudio (windowDefined : Bool) (clock : Nat → ℚ) (st : CtxRunState)
    (p : AudioPlayer) : AudioPlayer :=
  if !p.isInit && windowDefined then
    AudioPlayer.mk (some (AudioContextM.mk clock 0 st [])) true
  else p

/-- Embeds `resume()` (modulo the asynchronous await): when the context
exists and is suspended, resumes it; otherwise does nothing. -/
def resume (p : AudioPlayer) : AudioPlayer :=
  match p.audioContext with
  | none => p
  | some ctx =>
    if ctx.runState = CtxRunState.suspended then
      AudioPlayer.mk
        (some (AudioContextM.mk ctx.clock ctx.reads CtxRunState.running ctx.units))
        p.isInit
    else p

/-- The invariant relating the `AudioPlayer` flag to its context:
`isInitialized` holds exactly when the audio context is non-null. -/
def invariantOk (p : AudioPlayer) : Prop :=
  p.isInit = p.audioContext.isSome

/-- A monotone timeline clock which advances from `0` to `1` between the
third and fourth reads: the first tone of a two-key `playChord` call sees
`0, 0, 0, 1` and the second sees `1, 1, 1, 1`. -/
def driftClock : Nat → ℚ :=
  fun k => if k < 3 then 0 else 1

/-- An initialized player whose context carries `driftClock` and has
performed no reads yet. -/
def driftPlayer : AudioPlayer :=
  AudioPlayer.mk (some (AudioContextM.mk driftClock 0 CtxRunState.running [])) true

/-- Modelled from the spec: one pending timed action of the cancellable timer
group.  The repository's `scheduleAction` primitive and its `run` entry point
are not among the provided sources (only the scheduler fold that calls them
is), so the pending-action store is modelled from §5 of the spec: each armed
action remembers the run that armed it, the absolute time (ms) at which it
fires, and its events. -/
structure PendingAction where
  runId : Nat
  fireAtMs : ℚ
  events : List SchedEvent
deriving DecidableEq, Repr

/-- Modelled from the spec: the state of the cooperative timer loop — the
current time in ms, the identifier of the most recently started run, and the
pending (armed, not yet fired) timed actions. -/
structure SchedState where
  nowMs : ℚ
  currentRun : Nat
  pending : List PendingAction
deriving DecidableEq, Repr

/-- Modelled from the spec: starting a run.  Per §5, "starting a new run …
must invalidate/clear all pending timed actions from a prior run before
arming new ones": the new state's pending actions are exactly the actions
armed by `playAllNotes` for this run, each stamped with the fresh run
identifier and fired relative to the start instant; every not-yet-fired
action of any prior run is dropped. -/
def runSched (notes : List Note) (B : ℚ) (s : SchedState) : SchedState :=
  SchedState.mk s.nowMs (s.currentRun + 1)
    ((playAllNotes notes B).map
      (fun a => PendingAction.mk (s.currentRun + 1) (s.nowMs + a.delayMs) a.events))

/-- Modelled from the spec: letting `dt` ms of host-loop time elapse.  Every
pending action whose fire time has been reached fires (is returned, in the
second component) and is removed; the rest stay pending. -/
def advanceFire (dt : ℚ) (s : SchedState) : SchedState × List PendingAction :=
  (SchedState.mk (s.nowMs + dt) s.currentRun
     (s.pending.filter (fun a => decide (s.nowMs + dt < a.fireAtMs))),
   s.pending.filter (fun a => decide (a.fireAtMs ≤ s.nowMs + dt)))

/-- Modelled from the spec: all actions that ever fire while the host loop
advances by the successive amounts in `dts`. -/
def fireSeq (dts : List ℚ) (s : SchedState) : List PendingAction :=
  match dts with
  | [] => []
  | dt :: rest => (advanceFire dt s).2 ++ fireSeq rest (advanceFire dt s).1

lemma playNotesFrom_fst (notes : List Note) (B : ℚ) :
    ∀ index delay, (playNotesFrom notes index delay B).1
      = delay + (notes.map Note.duration).sum * B := by
  induction notes with
  | nil => intro i d; simp [playNotesFrom]
  | cons n rest ih =>
    intro i d
    simp only [playNotesFrom, scheduleNotePlay, ih, List.map_cons, List.sum_cons]
    ring

lemma playNotesFrom_length (notes : List Note) (B : ℚ) :
    ∀ index delay, (playNotesFrom notes index delay B).2.length = notes.length := by
  induction notes with
  | nil => intro i d; simp [playNotesFrom]
  | cons n rest ih =>
    intro i d
    simp [playNotesFrom, ih]

lemma playNotesFrom_delays (notes : List Note) (B : ℚ) :
    ∀ index delay, (playNotesFrom notes index delay B).2.map TimedAction.delayMs
      = (List.range notes.length).map
          (fun j => (delay + ((notes.take j).map Note.duration).sum * B) * 1000) := by
  induction notes with
  | nil => intro i d; simp [playNotesFrom]
  | cons n rest ih =>
    intro i d
    simp only [playNotesFrom, scheduleNotePlay, List.map_cons, List.length_cons,
      List.range_succ_eq_map, List.map_map]
    refine congrArg₂ List.cons (by norm_num) ?_
    rw [ih]
    refine List.map_congr_left ?_
    intro j hj
    simp only [Function.comp_apply, List.take_succ_cons, List.map_cons, List.sum_cons]
    ring

lemma playAllNotes_delays (notes : List Note) (B : ℚ) :
    (playAllNotes notes B).map TimedAction.delayMs
      = (List.range (notes.length + 1)).map
          (fun j => ((notes.take j).map Note.duration).sum * B * 1000) := by
  simp only [playAllNotes, List.map_append, List.map_cons, List.map_nil,
    playNotesFrom_delays, playNotesFrom_fst, List.range_succ]
  refine congrArg₂ (· ++ ·) ?_ ?_
  · refine List.map_congr_left ?_
    intro j hj
    ring
  · simp only [List.take_length]
    norm_num

lemma playNotesFrom_events (notes : List Note) (B : ℚ) :
    ∀ index delay j, j < notes.length →
      ((playNotesFrom notes index delay B).2.getD j (TimedAction.mk 0 [])).events
        = [SchedEvent.noteStart (index + j),
           SchedEvent.chord ((notes.getD j (Note.mk [] 0)).keys)
             ((notes.getD j (Note.mk [] 0)).duration * B)] := by
  induction notes with
  | nil => intro i d j hj; simp at hj
  | cons n rest ih =>
    intro i d j hj
    cases j with
    | zero => simp [playNotesFrom, scheduleNotePlay]
    | succ j' =>
      have hj' : j' < rest.length := by simpa using hj
      have hidx : i + 1 + j' = i + (j' + 1) := by omega
      simp only [playNotesFrom, List.getD_cons_succ]
      rw [ih (i + 1) _ j' hj', hidx]

/-- C1: for a note sequence with durations `d0, ..., d(n-1)` (beats) and
beat duration `B`, the scheduler's fold arms the action of note `i` at the
prefix-sum offset `(d0 + ... + d(i-1))·B` seconds (`delayMs` being `1000 ×`
the offset in seconds), so in particular at offset `0` for the first note;
it arms the completion action at `(d0 + ... + d(n-1))·B`; and the armed
offset sequence is non-decreasing whenever every duration is non-negative
(with the beat duration non-negative as well — the spec's data model
requires `B > 0`). -/
theorem playAllNotes_offsets (notes : List Note) (B : ℚ) :
    ((playAllNotes notes B).map TimedAction.delayMs
        = (List.range (notes.length + 1)).map
            (fun i => ((notes.take i).map Note.duration).sum * B * 1000))
    ∧ (playAllNotes notes B).getLast?
        = some (TimedAction.mk ((notes.map Note.duration).sum * B * 1000)
            [SchedEvent.complete])
    ∧ ((0:ℚ) ≤ B → (∀ n ∈ notes, 0 ≤ n.duration) →
        List.Chain' (fun a b => a ≤ b)
          ((playAllNotes notes B).map TimedAction.delayMs)) := by
  refine ⟨playAllNotes_delays notes B, ?_, ?_⟩
  · simp only [playAllNotes, List.getLast?_concat, playNotesFrom_fst,
      Option.some.injEq, TimedAction.mk.injEq]
    exact ⟨by ring, trivial⟩
  · intro hB hd
    rw [playAllNotes_delays, List.chain'_map, List.chain'_range_succ]
    intro m hm
    have hmL : m < (notes.map Note.duration).length := by simpa using hm
    have hstep : ((notes.take m).map Note.duration).sum
        ≤ ((notes.take (m + 1)).map Note.duration).sum := by
      rw [List.map_take, List.map_take, List.sum_take_succ _ m hmL]
      have h0 : 0 ≤ (notes.map Note.duration)[m] := by
        rw [List.getElem_map]
        exact hd _ (List.getElem_mem _)
      linarith
    have h1000 : (0:ℚ) ≤ 1000 := by norm_num
    exact mul_le_mul_of_nonneg_right (mul_le_mul_of_nonneg_right hstep hB) h1000

/-- Witness for `playAllNotes_offsets`: the non-decreasing conclusion on a
concrete two-note sequence with unit beat duration. -/
theorem playAllNotes_offsets_witness :
    List.Chain' (fun a b => a ≤ b)
      ((playAllNotes [Note.mk [("c/4")] (1/2), Note.mk [("d/4")] (1/2)] 1).map
        TimedAction.delayMs) :=
  (playAllNotes_offsets [Note.mk [("c/4")] (1/2), Note.mk [("d/4")] (1/2)] 1).2.2
    (by norm_num) (by rintro n hn; fin_cases hn <;> norm_num)

/-- C5: on the empty note sequence the scheduler arms exactly one action, the
completion callback, at delay `0`; no `onNoteStart` or `playChord` event is
armed. -/
theorem playAllNotes_nil (B : ℚ) :
    playAllNotes [] B = [TimedAction.mk 0 [SchedEvent.complete]] := by
  norm_num [playAllNotes, playNotesFrom]

/-- C6: the single timed action armed for the note at position `i` performs,
in order, `onNoteStart(i)` first and then
`playChord(note.keys, note.duration * beatDuration)`. -/
theorem playAllNotes_action_order (notes : List Note) (B : ℚ) (i : Nat)
    (h : i < notes.length) :
    ((playAllNotes notes B).getD i (TimedAction.mk 0 [])).events
      = [SchedEvent.noteStart i,
         SchedEvent.chord ((notes.getD i (Note.mk [] 0)).keys)
           ((notes.getD i (Note.mk [] 0)).duration * B)] := by
  have hlen : i < (playNotesFrom notes 0 0 B).2.length := by
    rw [playNotesFrom_length]; exact h
  simp only [playAllNotes]
  rw [List.getD_append _ _ _ _ hlen]
  simpa using playNotesFrom_events notes B 0 0 i h

/-- Witness for `playAllNotes_action_order`: the second note of a concrete
two-note run. -/
theorem playAllNotes_action_order_witness :
    ((playAllNotes [Note.mk [("c/4")] (1/2), Note.mk [("d/4")] (1/2)] 1).getD 1
        (TimedAction.mk 0 [])).events
      = [SchedEvent.noteStart 1, SchedEvent.chord [("d/4")] (1/2 * 1)] := by
  simpa using playAllNotes_action_order
    [Note.mk [("c/4")] (1/2), Note.mk [("d/4")] (1/2)] 1 1 (by norm_num)

lemma lookup_mem_pairs :
    ∀ (l : List (String × ℚ)) (a : String) (b : ℚ),
      l.lookup a = some b → (a, b) ∈ l := by
  intro l
  induction l with
  | nil => intro a b h; simp at h
  | cons p rest ih =>
    intro a b h
    obtain ⟨k, v⟩ := p
    rw [List.lookup_cons] at h
    by_cases hk : a == k
    · have ha : a = k := by simpa using hk
      simp only [hk] at h
      simp only [Option.some.injEq] at h
      subst ha
      subst h
      exact List.mem_cons_self _ _
    · simp only [Bool.not_eq_true] at hk
      simp only [hk] at h
      exact List.mem_cons_of_mem _ (ih a b h)

lemma noteMap_values_ne_zero : ∀ q ∈ noteMap, q.2 ≠ 0 := by
  intro q hq
  fin_cases hq <;> norm_num

/-- C7: `getFrequency` is a total function — a pitch name absent from the
table yields the default `440` Hz, and a pitch name present in the table
yields that entry's frequency. -/
theorem getFrequency_total :
    (∀ note : String, noteMap.lookup note = none → getFrequency note = 440)
    ∧ (∀ (note : String) (f : ℚ), noteMap.lookup note = some f →
        getFrequency note = f) := by
  constructor
  · intro note h
    simp [getFrequency, h]
  · intro note f h
    have hf : f ≠ 0 := noteMap_values_ne_zero _ (lookup_mem_pairs noteMap note f h)
    simp [getFrequency, h, hf]

/-- Witness for `getFrequency_total`: an unknown pitch name and a known
one. -/
theorem getFrequency_total_witness :
    getFrequency ("h/9") = 440 ∧ getFrequency ("c/4") = 26163/100 :=
  And.intro (getFrequency_total.1 ("h/9") (by rfl))
    (getFrequency_total.2 ("c/4") (26163/100) (by rfl))

/-- C8: `initialize()` is idempotent — one call with the `window` global
present leaves the player initialized, and every further call (in any
environment) returns the state unchanged: no second context is created, no
error is raised. -/
theorem initAudio_idempotent (p : AudioPlayer) (c1 c2 : Nat → ℚ)
    (s1 s2 : CtxRunState) (wd : Bool) :
    (initAudio true c1 s1 p).isInit = true
    ∧ initAudio wd c2 s2 (initAudio true c1 s1 p) = initAudio true c1 s1 p := by
  by_cases hp : p.isInit
  · constructor
    · simp [initAudio, hp]
    · simp [initAudio, hp]
  · simp only [Bool.not_eq_true] at hp
    constructor
    · simp [initAudio, hp]
    · simp [initAudio, hp]

lemma playNote_preserves (f d : ℚ) (p : AudioPlayer) :
    (playNote f d p).isInit = p.isInit
    ∧ (playNote f d p).audioContext.isSome = p.audioContext.isSome := by
  rcases p with ⟨ao, ii⟩
  cases ao with
  | none => exact ⟨rfl, rfl⟩
  | some ctx => exact ⟨rfl, rfl⟩

lemma foldl_playNote_preserves (d : ℚ) (keys : List String) :
    ∀ p : AudioPlayer,
      ((keys.foldl (fun q key => playNote (getFrequency key) d q) p).isInit
          = p.isInit)
      ∧ ((keys.foldl (fun q key => playNote (getFrequency key) d q)
            p).audioContext.isSome
          = p.audioContext.isSome) := by
  induction keys with
  | nil => intro p; exact ⟨rfl, rfl⟩
  | cons k rest ih =>
    intro p
    simp only [List.foldl_cons]
    constructor
    · rw [(ih (playNote (getFrequency k) d p)).1,
        (playNote_preserves (getFrequency k) d p).1]
    · rw [(ih (playNote (getFrequency k) d p)).2,
        (playNote_preserves (getFrequency k) d p).2]

/-- C9: the `AudioPlayer` invariant — `isInitialized` is true exactly when
the audio context is non-null: it holds for the fresh player and is
preserved by `initialize`, `resume` and `playChord`. -/
theorem audioPlayer_invariant :
    invariantOk initialPlayer
    ∧ (∀ (wd : Bool) (c : Nat → ℚ) (st : CtxRunState) (p : AudioPlayer),
        invariantOk p → invariantOk (initAudio wd c st p))
    ∧ (∀ p : AudioPlayer, invariantOk p → invariantOk (resume p))
    ∧ (∀ (keys : List String) (d : ℚ) (p : AudioPlayer),
        invariantOk p → invariantOk (playChord keys d p)) := by
  refine ⟨rfl, ?_, ?_, ?_⟩
  · intro wd c st p hp
    unfold invariantOk initAudio
    split
    · rfl
    · exact hp
  · rintro ⟨ao, ii⟩ hp
    cases ao with
    | none => exact hp
    | some ctx =>
      simp only [invariantOk, resume] at hp ⊢
      split
      · simpa using hp
      · simpa using hp
  · intro keys d p hp
    rcases p with ⟨ao, ii⟩
    cases ao with
    | none => exact hp
    | some ctx =>
      have h := foldl_playNote_preserves d keys (AudioPlayer.mk (some ctx) ii)
      simp only [invariantOk, playChord] at hp ⊢
      rw [h.1, h.2]
      exact hp

/-- Witness for `audioPlayer_invariant`: the invariant after initializing the
fresh player. -/
theorem audioPlayer_invariant_witness :
    invariantOk (initAudio true (fun _ => 0) CtxRunState.running initialPlayer) :=
  audioPlayer_invariant.2.1 true (fun _ => 0) CtxRunState.running initialPlayer
    (by rfl)

/-- C4: with the audio context absent (uninitialized engine), `playChord`
returns the player unchanged for every key list and duration — no
tone-producing unit is created, no state changes, and no error is raised
(the function is total). -/
theorem playChord_uninitialized_noop (p : AudioPlayer) (keys : List String)
    (d : ℚ) (h : p.audioContext = none) : playChord keys d p = p := by
  rcases p with ⟨ao, ii⟩
  cases ao with
  | none => rfl
  | some ctx => simp at h

/-- Witness for `playChord_uninitialized_noop`: the fresh player. -/
theorem playChord_uninitialized_noop_witness :
    playChord [("c/4")] 1 initialPlayer = initialPlayer :=
  playChord_uninitialized_noop initialPlayer [("c/4")] 1 rfl

/-- C10: on an initialized engine, `playChord` with an empty key list is a
no-op: no oscillator or gain node is created, no error is raised, and the
player state is unchanged. -/
theorem playChord_empty_keys_noop (p : AudioPlayer) (ctx : AudioContextM)
    (d : ℚ) (h : p.audioContext = some ctx) : playChord [] d p = p := by
  rcases p with ⟨ao, ii⟩
  cases ao with
  | none => simp at h
  | some c => rfl

/-- Witness for `playChord_empty_keys_noop`: a concrete initialized
player. -/
theorem playChord_empty_keys_noop_witness :
    playChord [] 1 (AudioPlayer.mk
        (some (AudioContextM.mk (fun _ => 0) 0 CtxRunState.running [])) true)
      = AudioPlayer.mk
        (some (AudioContextM.mk (fun _ => 0) 0 CtxRunState.running [])) true :=
  playChord_empty_keys_noop _
    (AudioContextM.mk (fun _ => 0) 0 CtxRunState.running []) 1 rfl

/-- C2 fails on the code: `playChord` does not read the timeline's current
time once per call — the source re-reads `audioContext.currentTime` for
every key, indeed for every node call.  Under the monotone timeline clock
`driftClock` (which ticks from `0` to `1` between the third and fourth
reads), `playChord(["c/4","e/4"], 1)` starts its two tones at the distinct
instants `0` and `1`, and the first tone's stop instant `2` differs from its
start instant plus the duration.  This contradicts the unison guarantee the
repository's own article documents for `playChord`. -/
theorem playChord_clock_drift :
    ∃ u v : ToneUnit, ∃ c : AudioContextM,
      (playChord [("c/4"), ("e/4")] 1 driftPlayer).audioContext = some c
      ∧ c.units = [u, v]
      ∧ Monotone driftClock
      ∧ u.startAt ≠ v.startAt
      ∧ u.stopAt ≠ u.startAt + 1 := by
  refine ⟨ToneUnit.mk (26163/100) WaveKind.sine (3/10) 0 (1/100) 1 0 2,
          ToneUnit.mk (32963/100) WaveKind.sine (3/10) 1 (1/100) 2 1 2,
          AudioContextM.mk driftClock 8 CtxRunState.running
            [ToneUnit.mk (26163/100) WaveKind.sine (3/10) 0 (1/100) 1 0 2,
             ToneUnit.mk (32963/100) WaveKind.sine (3/10) 1 (1/100) 2 1 2],
          ?_, rfl, ?_, ?_, ?_⟩
  · have hc : getFrequency ("c/4") = 26163/100 := by
      have h : noteMap.lookup ("c/4") = some (26163/100) := rfl
      norm_num [getFrequency, h]
    have he : getFrequency ("e/4") = 32963/100 := by
      have h : noteMap.lookup ("e/4") = some (32963/100) := rfl
      norm_num [getFrequency, h]
    norm_num [playChord, playNote, driftPlayer, driftClock, hc, he]
  · intro a b hab
    dsimp [driftClock]
    by_cases ha : a < 3 <;> by_cases hb : b < 3
    · simp [ha, hb]
    · simp [ha, hb]
    · exact absurd hab (by omega)
    · simp [ha, hb]
  · norm_num
  · norm_num

lemma fireSeq_runId (P : Nat → Prop) :
    ∀ (dts : List ℚ) (s : SchedState),
      (∀ a ∈ s.pending, P a.runId) → ∀ b ∈ fireSeq dts s, P b.runId := by
  intro dts
  induction dts with
  | nil => intro s hs b hb; simp [fireSeq] at hb
  | cons dt rest ih =>
    intro s hs b hb
    simp only [fireSeq, List.mem_append] at hb
    rcases hb with hb | hb
    · simp only [advanceFire] at hb
      exact hs b (List.mem_filter.mp hb).1
    · refine ih (advanceFire dt s).1 ?_ b hb
      intro a ha
      simp only [advanceFire] at ha
      exact hs a (List.mem_filter.mp ha).1

/-- C3 (the cancellable timer group and the `run` entry point are modelled
from §5 of the spec, their source not being among the provided files):
starting a second run — at any point `dt` after a first run, with any of the
first run's actions still pending — clears the first run's pending actions,
so every action that ever fires afterwards belongs to the second run and
none belongs to the first: no `onNoteStart` or `onComplete` callback of the
first run fires once the second run has started. -/
theorem run_cancels_prior (s : SchedState) (notes1 notes2 : List Note)
    (B1 B2 dt : ℚ) (dts : List ℚ) (b : PendingAction)
    (hb : b ∈ fireSeq dts
      (runSched notes2 B2 (advanceFire dt (runSched notes1 B1 s)).1)) :
    b.runId
        = (runSched notes2 B2
            (advanceFire dt (runSched notes1 B1 s)).1).currentRun
    ∧ b.runId ≠ (runSched notes1 B1 s).currentRun := by
  have hpend : ∀ a ∈ (runSched notes2 B2
      (advanceFire dt (runSched notes1 B1 s)).1).pending,
      a.runId = (runSched notes2 B2
        (advanceFire dt (runSched notes1 B1 s)).1).currentRun := by
    intro a ha
    simp only [runSched, List.mem_map] at ha
    obtain ⟨x, hx, rfl⟩ := ha
    rfl
  have h1 := fireSeq_runId
    (fun r => r = (runSched notes2 B2
      (advanceFire dt (runSched notes1 B1 s)).1).currentRun)
    dts _ hpend b hb
  refine ⟨h1, ?_⟩
  rw [h1]
  simp only [runSched, advanceFire]
  omega

/-- Witness for `run_cancels_prior`: a one-note second run started right
after a one-note first run; the fired highlight/chord action of the second
run carries run id `2`, not the first run's id `1`. -/
theorem run_cancels_prior_witness :
    (PendingAction.mk 2 0 [SchedEvent.noteStart 0,
        SchedEvent.chord [("d/4")] 1]).runId
        = (runSched [Note.mk [("d/4")] 1] 1
            (advanceFire 0 (runSched [Note.mk [("c/4")] 1] 1
              (SchedState.mk 0 0 []))).1).currentRun
    ∧ (PendingAction.mk 2 0 [SchedEvent.noteStart 0,
        SchedEvent.chord [("d/4")] 1]).runId
        ≠ (runSched [Note.mk [("c/4")] 1] 1 (SchedState.mk 0 0 [])).currentRun :=
  run_cancels_prior (SchedState.mk 0 0 []) [Note.mk [("c/4")] 1]
    [Note.mk [("d/4")] 1] 1 1 0 [2000]
    (PendingAction.mk 2 0 [SchedEvent.noteStart 0, SchedEvent.chord [("d/4")] 1])
    (by norm_num [fireSeq, advanceFire, runSched, playAllNotes, playNotesFrom,
      scheduleNotePlay, List.filter_cons])

end Clocks
